import Mathlib

/-!
Verification of the ILI (in-line inspection) anomaly-tracking pipeline:
a shallow embedding of the pipeline's core stages (normalize, align,
match, growth, project) and proofs of the specified properties.

Modelling conventions used throughout:
* Python floats are modelled as `ℚ`; a pandas missing value (`NaN`/`None`)
  is modelled as `Option.none`.  Comparisons against a missing value are
  `False` in Python (NaN semantics); the embedding spells this out case by
  case where it matters.
* DataFrame rows are records whose normalized columns always exist
  (the normalize stage creates every output column), so `dict.get`
  on a row returns the column value, missing data being `none`.
* Python `set`s of indices are modelled as `List ℕ` used only through
  membership; Python's stable `list.sort` is modelled by `List.mergeSort`,
  which is also stable.
-/

/- ### Configuration constants (config.py) -/

def W_DIST : ℚ := 1
def W_CLOCK : ℚ := 1/100
def W_DEPTH : ℚ := 1
def W_LENGTH : ℚ := 1/10
def W_WIDTH : ℚ := 1/10
def AXIAL_TOL_M : ℚ := 50
def CLOCK_TOL_DEG : ℚ := 30
def MATCH_SCORE_EPSILON : ℚ := 1/2
def SEGMENT_LENGTH_MIN_M : ℚ := 1/100
def MAX_DEPTH_RATE_OUTLIER : ℚ := 5

/- ### Python string helpers

`pyStrip`/`pyLower` model `str.strip()`/`str.lower()` (ASCII case folding,
whitespace per `Char.isWhitespace`); `containsSub s p` models Python's
substring test `p in s`. -/

def pyStrip (s : String) : String :=
  String.mk (((s.data.dropWhile Char.isWhitespace).reverse.dropWhile Char.isWhitespace).reverse)

def pyLower (s : String) : String :=
  String.mk (s.data.map Char.toLower)

def leadEq : List Char → List Char → Bool
  | [], _ => true
  | _ :: _, [] => false
  | c :: cs, d :: ds => c == d && leadEq cs ds

def hasRun (p : List Char) : List Char → Bool
  | [] => p.isEmpty
  | c :: rest => leadEq p (c :: rest) || hasRun p rest

def containsSub (s p : String) : Bool := hasRun p.data s.data

/- ### Feature rows

One normalized DataFrame row (the columns produced by normalize.py that
the align/match stages read). -/

structure Feature where
  feature_type : Option String
  joint_number : Option ℚ
  distance_raw : Option ℚ
  distance_corrected : Option ℚ
  clock_position : Option ℚ
  depth_percent : Option ℚ
  length_mm : Option ℚ
  width_mm : Option ℚ
deriving Repr, DecidableEq, Inhabited

/- ### Feature families (match.py)

`FEATURE_FAMILIES` is an insertion-ordered dict, so `to_feature_family`
tests the METAL_LOSS patterns first, then CLUSTER, then the weld
vocabulary.  `pd.isna(event)` (a missing feature type) maps to UNKNOWN. -/

inductive Family where
  | metalLoss
  | cluster
  | weld
  | unknown
deriving Repr, DecidableEq

def metalLossPatterns : List String :=
  ["metal loss", "corrosion", "external ml", "internal ml",
   "metal loss-manufacturing", "metal loss manufacturing",
   "metal loss manufacturing anomaly", "metal loss anomaly",
   "seam weld manufacturing anomaly", "metal loss manufacturing anomaly",
   "seam weld anomaly", "metal loss depth"]

def clusterPatterns : List String := ["cluster"]

def weldFamilyPatterns : List String := ["weld", "gw", "girth", "girth weld", "girthweld"]

def toFeatureFamily (event : Option String) : Family :=
  match event with
  | none => Family.unknown
  | some s0 =>
    let s := pyLower (pyStrip s0)
    if metalLossPatterns.any (fun p => containsSub s p) then Family.metalLoss
    else if clusterPatterns.any (fun p => containsSub s p) then Family.cluster
    else if weldFamilyPatterns.any (fun p => containsSub s p) then Family.weld
    else Family.unknown

def isAnomaly (event : Option String) : Bool :=
  let fam := toFeatureFamily event
  fam ≠ Family.weld ∧
    (fam = Family.metalLoss ∨ fam = Family.cluster ∨ fam = Family.unknown)

def typeCompatible (tPrev tLater : Option String) : Bool :=
  let a := toFeatureFamily tPrev
  let b := toFeatureFamily tLater
  if a = Family.weld ∨ b = Family.weld then false
  else if a = Family.unknown ∨ b = Family.unknown then true
  else a = b

/- ### Circular clock difference (match.py `_circular_clock_diff`)

`qmod x y` is Python's `%` on floats for a positive modulus:
`x - y * ⌊x / y⌋`.  A missing clock on either side yields 0. -/

def qmod (x y : ℚ) : ℚ := x - y * ⌊x / y⌋

/-- Python's `abs` on floats, written executably. -/
def qabs (x : ℚ) : ℚ := if x < 0 then -x else x

theorem qabs_eq_abs (x : ℚ) : qabs x = |x| := by
  unfold qabs
  rcases lt_or_ge x 0 with h | h
  · rw [if_pos h, abs_of_neg h]
  · rw [if_neg (not_lt.mpr h), abs_of_nonneg h]

def circularClockDiff (a b : Option ℚ) : ℚ :=
  match a, b with
  | some x, some y => qabs (qmod (x - y + 180) 360 - 180)
  | _, _ => 0

/- ### Match score (match.py `score_match`)

The matcher calls `score_match` with the config-default weights, which the
embedding inlines.  A depth/length/width difference with a missing operand
contributes 0 (`pd.notna` guard); the UNKNOWN-family penalty is 10.
`scoreVal dp dl fp fl` is the score when both corrected distances are
present (the only case the matcher scores); `scoreMatch` returns `none`
when either corrected distance is missing (the Python score would be NaN). -/

def optAbsDiff (a b : Option ℚ) : ℚ :=
  match a, b with
  | some x, some y => qabs (x - y)
  | _, _ => 0

def unknownPenalty (tPrev tLater : Option String) : ℚ :=
  if toFeatureFamily tPrev = Family.unknown ∨ toFeatureFamily tLater = Family.unknown
  then 10 else 0

def scoreVal (dp dl : ℚ) (fp fl : Feature) : ℚ :=
  W_DIST * qabs (dp - dl) + W_CLOCK * circularClockDiff fp.clock_position fl.clock_position
    + W_DEPTH * optAbsDiff fp.depth_percent fl.depth_percent
    + W_LENGTH * optAbsDiff fp.length_mm fl.length_mm
    + W_WIDTH * optAbsDiff fp.width_mm fl.width_mm
    + unknownPenalty fp.feature_type fl.feature_type

def scoreMatch (fp fl : Feature) : Option ℚ :=
  match fp.distance_corrected, fl.distance_corrected with
  | some dp, some dl => some (scoreVal dp dl fp fl)
  | _, _ => none

/- ### Hard filter (match.py `_hard_filter`)

`dd > axial_tol` is `False` in Python when a distance is NaN, so a missing
corrected distance passes the distance check here (inside the matcher the
candidate mask has already excluded NaN distances). -/

def hardFilter (fp fl : Feature) (axialTol clockTol : ℚ) : Bool :=
  (match fp.distance_corrected, fl.distance_corrected with
   | some x, some y => decide (qabs (x - y) ≤ axialTol)
   | _, _ => true)
  && decide (circularClockDiff fp.clock_position fl.clock_position ≤ clockTol)
  && typeCompatible fp.feature_type fl.feature_type

/- ### Greedy matcher (match.py `match_anomalies`)

A candidate is a `(score, prev index, prev row)` triple, exactly the
tuples the Python loop sorts.  Python's stable `list.sort` is modelled by
`List.mergeSort` with the score comparison `candLe`. -/

abbrev Cand := ℚ × ℕ × Feature

def candLe (a b : Cand) : Bool := decide (a.1 ≤ b.1)

/-- The per-later-row candidate list: previous-run rows with a present
corrected distance inside the axial window, not yet used, passing the
hard filters, scored, in encounter (index) order. -/
def candidatesFor (prevFeats : List Feature) (usedPrev : List ℕ)
    (axialTol clockTol : ℚ) (fl : Feature) (dLater : ℚ) : List Cand :=
  prevFeats.enum.filterMap (fun jf =>
    match jf.2.distance_corrected with
    | none => none
    | some dp =>
      if qabs (dp - dLater) ≤ axialTol ∧ jf.1 ∉ usedPrev ∧
          hardFilter jf.2 fl axialTol clockTol = true
      then some (scoreVal dp dLater jf.2 fl, jf.1, jf.2)
      else none)

structure MatchRow where
  prev_idx : ℕ
  later_idx : ℕ
  prev_year : ℤ
  later_year : ℤ
  prev_distance_raw : Option ℚ
  later_distance_raw : Option ℚ
  prev_distance_corrected : Option ℚ
  later_distance_corrected : Option ℚ
  delta_distance : Option ℚ
  prev_depth_percent : Option ℚ
  later_depth_percent : Option ℚ
  prev_length_mm : Option ℚ
  later_length_mm : Option ℚ
  prev_width_mm : Option ℚ
  later_width_mm : Option ℚ
  score : ℚ
  reason_flags : String
deriving Repr, DecidableEq, Inhabited

structure AmbiguousRow where
  later_idx : ℕ
  prev_idx_candidate_1 : ℕ
  prev_idx_candidate_2 : ℕ
  score_1 : ℚ
  score_2 : ℚ
  later_row : Feature
deriving Repr, DecidableEq

structure MatchState where
  matchRows : List MatchRow
  ambiguousRecs : List AmbiguousRow
  usedPrev : List ℕ
  usedLater : List ℕ
deriving Repr, DecidableEq

def mkMatchRow (prevYear laterYear : ℤ) (j i : ℕ) (s : ℚ) (fp fl : Feature) : MatchRow :=
  { prev_idx := j, later_idx := i, prev_year := prevYear, later_year := laterYear,
    prev_distance_raw := fp.distance_raw, later_distance_raw := fl.distance_raw,
    prev_distance_corrected := fp.distance_corrected,
    later_distance_corrected := fl.distance_corrected,
    delta_distance :=
      match fp.distance_corrected, fl.distance_corrected with
      | some dcP, some dcL => some (dcL - dcP)
      | _, _ => none,
    prev_depth_percent := fp.depth_percent, later_depth_percent := fl.depth_percent,
    prev_length_mm := fp.length_mm, later_length_mm := fl.length_mm,
    prev_width_mm := fp.width_mm, later_width_mm := fl.width_mm,
    score := s, reason_flags := "" }

/-- Commit the best candidate: mark both indices used, append the Match. -/
def commitState (prevYear laterYear : ℤ) (st : MatchState) (i : ℕ) (fl : Feature)
    (c1 : Cand) : MatchState :=
  { st with
    matchRows := st.matchRows ++ [mkMatchRow prevYear laterYear c1.2.1 i c1.1 c1.2.2 fl],
    usedPrev := c1.2.1 :: st.usedPrev,
    usedLater := i :: st.usedLater }

/-- Decision on the sorted candidate list: no candidate → skip; top two
scores within epsilon → record Ambiguous (nothing marked used);
otherwise commit the minimum-score candidate. -/
def chooseStep (prevYear laterYear : ℤ) (eps : ℚ) (st : MatchState) (i : ℕ)
    (fl : Feature) : List Cand → MatchState
  | [] => st
  | c1 :: tail =>
    match tail with
    | c2 :: _ =>
      if qabs (c2.1 - c1.1) < eps then
        { st with ambiguousRecs :=
            st.ambiguousRecs ++ [⟨i, c1.2.1, c2.2.1, c1.1, c2.1, fl⟩] }
      else commitState prevYear laterYear st i fl c1
    | [] => commitState prevYear laterYear st i fl c1

/-- One iteration of the matcher's loop over later-run rows (a later row
with a missing corrected distance is skipped). -/
def processLater (prevFeats : List Feature) (prevYear laterYear : ℤ)
    (axialTol clockTol eps : ℚ) (st : MatchState) (i : ℕ) (fl : Feature) : MatchState :=
  match fl.distance_corrected with
  | none => st
  | some dLater =>
    chooseStep prevYear laterYear eps st i fl
      ((candidatesFor prevFeats st.usedPrev axialTol clockTol fl dLater).mergeSort candLe)

structure MatchResult where
  matchRows : List MatchRow
  newRows : List (ℕ × Feature)
  missingRows : List (ℕ × Feature)
  ambiguousRecs : List AmbiguousRow
deriving Repr, DecidableEq

/-- match.py `match_anomalies`: filter both runs to anomaly rows, walk the
later run in index order, and collect Matches / New / Missing / Ambiguous. -/
def matchAnomalies (dfPrev dfLater : List Feature) (prevYear laterYear : ℤ)
    (axialTol clockTol eps : ℚ) : MatchResult :=
  let prevA := dfPrev.filter (fun f => isAnomaly f.feature_type)
  let laterA := dfLater.filter (fun f => isAnomaly f.feature_type)
  let st := laterA.enum.foldl
    (fun st p => processLater prevA prevYear laterYear axialTol clockTol eps st p.1 p.2)
    ⟨[], [], [], []⟩
  { matchRows := st.matchRows,
    newRows := laterA.enum.filter (fun p => decide (p.1 ∉ st.usedLater)),
    missingRows := prevA.enum.filter (fun p => decide (p.1 ∉ st.usedPrev)),
    ambiguousRecs := st.ambiguousRecs }

/- ### Helper lemmas about the stable sort of candidate lists -/

theorem candLe_trans (a b c : Cand) (h₁ : candLe a b) (h₂ : candLe b c) : candLe a c := by
  simp only [candLe, decide_eq_true_eq] at *
  exact le_trans h₁ h₂

theorem candLe_total (a b : Cand) : candLe a b || candLe b a := by
  simp only [candLe, Bool.or_eq_true, decide_eq_true_eq]
  exact le_total a.1 b.1

/-- The head of the sorted candidate list scores no more than any
candidate (and than any element of the sorted tail). -/
theorem mergeSort_head_min (l : List Cand) (c : Cand) (rest : List Cand)
    (h : l.mergeSort candLe = c :: rest) :
    (∀ x ∈ l, c.1 ≤ x.1) ∧ ∀ x ∈ rest, c.1 ≤ x.1 := by
  have hs := List.sorted_mergeSort candLe_trans candLe_total l
  rw [h] at hs
  have hrest : ∀ x ∈ rest, candLe c x := (List.pairwise_cons.mp hs).1
  refine ⟨?_, fun x hx => by simpa [candLe, decide_eq_true_eq] using hrest x hx⟩
  intro x hx
  have hx' : x ∈ c :: rest := by rw [← h]; exact List.mem_mergeSort.mpr hx
  rcases List.mem_cons.mp hx' with rfl | hx''
  · exact le_refl _
  · simpa [candLe, decide_eq_true_eq] using hrest x hx''

/-- Stability: the head of the sorted candidate list is the first element
of the original list that attains the minimum score — everything before it
in encounter order scores strictly more. -/
theorem mergeSort_head_first (l : List Cand) :
    ∀ (c : Cand) (rest : List Cand), l.mergeSort candLe = c :: rest →
      ∃ pre post, l = pre ++ c :: post ∧ ∀ y ∈ pre, c.1 < y.1 := by
  induction l with
  | nil => intro c rest h; simp [List.mergeSort_nil] at h
  | cons a l ih =>
    intro c rest h
    obtain ⟨l₁, l₂, h₁, h₂, h₃⟩ := List.mergeSort_cons candLe_trans candLe_total a l
    rw [h] at h₁
    cases l₁ with
    | nil =>
      simp only [List.nil_append, List.cons.injEq] at h₁
      obtain ⟨rfl, rfl⟩ := h₁
      exact ⟨[], l, rfl, by simp⟩
    | cons b t =>
      simp only [List.cons_append, List.cons.injEq] at h₁
      obtain ⟨rfl, rfl⟩ := h₁
      have hb : c ∈ c :: t := List.mem_cons_self c t
      have hac : ¬ (a.1 ≤ c.1) := by
        have := h₃ c hb
        simpa [candLe, decide_eq_true_eq] using this
      rw [List.cons_append] at h₂
      obtain ⟨pre, post, hl, hpre⟩ := ih c (t ++ l₂) h₂
      refine ⟨a :: pre, post, by simp [hl], ?_⟩
      intro y hy
      rcases List.mem_cons.mp hy with rfl | hy'
      · exact lt_of_not_le hac
      · exact hpre y hy'

/-- A candidate produced by `candidatesFor` is not in the used set. -/
theorem candidatesFor_not_used (prevFeats : List Feature) (usedPrev : List ℕ)
    (axialTol clockTol : ℚ) (fl : Feature) (dLater : ℚ) (x : Cand)
    (hx : x ∈ candidatesFor prevFeats usedPrev axialTol clockTol fl dLater) :
    x.2.1 ∉ usedPrev := by
  simp only [candidatesFor, List.mem_filterMap] at hx
  obtain ⟨jf, _, heq⟩ := hx
  split at heq
  · simp at heq
  · split at heq
    · rename_i hcond
      obtain rfl := Option.some.inj heq
      exact hcond.2.1
    · simp at heq

theorem processLater_eq_chooseStep (prevFeats : List Feature) (prevYear laterYear : ℤ)
    (axialTol clockTol eps : ℚ) (st : MatchState) (i : ℕ) (fl : Feature) (dLater : ℚ)
    (hd : fl.distance_corrected = some dLater) :
    processLater prevFeats prevYear laterYear axialTol clockTol eps st i fl
      = chooseStep prevYear laterYear eps st i fl
          ((candidatesFor prevFeats st.usedPrev axialTol clockTol fl dLater).mergeSort candLe) := by
  unfold processLater
  rw [hd]

/-- Case analysis on one matcher step: it leaves the state unchanged,
appends one Ambiguous record (touching nothing else), or commits one
candidate whose previous index was unused. -/
theorem processLater_shape (prevFeats : List Feature) (prevYear laterYear : ℤ)
    (axialTol clockTol eps : ℚ) (st : MatchState) (i : ℕ) (fl : Feature) :
    processLater prevFeats prevYear laterYear axialTol clockTol eps st i fl = st ∨
    (∃ a, processLater prevFeats prevYear laterYear axialTol clockTol eps st i fl
        = { st with ambiguousRecs := st.ambiguousRecs ++ [a] }) ∨
    (∃ c1 : Cand, c1.2.1 ∉ st.usedPrev ∧
        processLater prevFeats prevYear laterYear axialTol clockTol eps st i fl
          = commitState prevYear laterYear st i fl c1) := by
  cases hd : fl.distance_corrected with
  | none => left; unfold processLater; rw [hd]
  | some dLater =>
    rw [processLater_eq_chooseStep prevFeats prevYear laterYear axialTol clockTol eps
      st i fl dLater hd]
    cases hs : (candidatesFor prevFeats st.usedPrev axialTol clockTol fl dLater).mergeSort candLe with
    | nil => left; rfl
    | cons c1 rest =>
      have hc1 : c1 ∈ candidatesFor prevFeats st.usedPrev axialTol clockTol fl dLater := by
        have : c1 ∈ c1 :: rest := List.mem_cons_self c1 rest
        rw [← hs] at this
        exact List.mem_mergeSort.mp this
      have hnu := candidatesFor_not_used prevFeats st.usedPrev axialTol clockTol fl dLater c1 hc1
      cases rest with
      | nil => right; right; exact ⟨c1, hnu, rfl⟩
      | cons c2 rest2 =>
        by_cases hlt : qabs (c2.1 - c1.1) < eps
        · right; left
          refine ⟨⟨i, c1.2.1, c2.2.1, c1.1, c2.1, fl⟩, ?_⟩
          simp [chooseStep, hlt]
        · right; right
          refine ⟨c1, hnu, ?_⟩
          simp [chooseStep, hlt]

/- ### C1: the matcher's per-row decision -/

/-- The conclusion of claim C1 at one later-run row whose candidate list
is non-empty: the sorted list has a head `c1` that is the encounter-order
first minimum-score candidate; either the top-two gap is `< eps` and an
Ambiguous record (both indices, both scores) is appended with the match
list and both used sets untouched, or the minimum candidate is committed. -/
def matchStepConcl (prevFeats : List Feature) (prevYear laterYear : ℤ)
    (axialTol clockTol eps : ℚ) (st : MatchState) (i : ℕ) (fl : Feature)
    (dLater : ℚ) : Prop :=
  ∃ c1 rest,
    (candidatesFor prevFeats st.usedPrev axialTol clockTol fl dLater).mergeSort candLe
      = c1 :: rest ∧
    c1 ∈ candidatesFor prevFeats st.usedPrev axialTol clockTol fl dLater ∧
    (∀ x ∈ candidatesFor prevFeats st.usedPrev axialTol clockTol fl dLater, c1.1 ≤ x.1) ∧
    (∃ pre post, candidatesFor prevFeats st.usedPrev axialTol clockTol fl dLater
        = pre ++ c1 :: post ∧ ∀ y ∈ pre, c1.1 < y.1) ∧
    ((∃ c2 rest2, rest = c2 :: rest2 ∧ qabs (c2.1 - c1.1) < eps ∧
        processLater prevFeats prevYear laterYear axialTol clockTol eps st i fl
          = { st with ambiguousRecs :=
                st.ambiguousRecs ++ [⟨i, c1.2.1, c2.2.1, c1.1, c2.1, fl⟩] }) ∨
     ((rest = [] ∨ ∃ c2 rest2, rest = c2 :: rest2 ∧ eps ≤ qabs (c2.1 - c1.1)) ∧
        processLater prevFeats prevYear laterYear axialTol clockTol eps st i fl
          = commitState prevYear laterYear st i fl c1))

/-- C1: for each later-run Feature with a present corrected distance and a
non-empty hard-filter-surviving candidate list, the matcher either records
an Ambiguous pair (when the top-two score gap is strictly below epsilon)
while leaving the Match list and both used sets unchanged, or commits the
minimum-score candidate, exact score ties being broken by encounter order
(the stable sort keeps the first-encountered minimum first). -/
theorem match_anomalies_step_spec (prevFeats : List Feature) (prevYear laterYear : ℤ)
    (axialTol clockTol eps : ℚ) (st : MatchState) (i : ℕ) (fl : Feature) (dLater : ℚ)
    (hd : fl.distance_corrected = some dLater)
    (hne : candidatesFor prevFeats st.usedPrev axialTol clockTol fl dLater ≠ []) :
    matchStepConcl prevFeats prevYear laterYear axialTol clockTol eps st i fl dLater := by
  have hred := processLater_eq_chooseStep prevFeats prevYear laterYear axialTol clockTol eps
    st i fl dLater hd
  cases hs : (candidatesFor prevFeats st.usedPrev axialTol clockTol fl dLater).mergeSort candLe with
  | nil =>
    exfalso
    apply hne
    have := congrArg List.length hs
    rw [List.length_mergeSort] at this
    exact List.length_eq_zero.mp this
  | cons c1 rest =>
    have hc1 : c1 ∈ candidatesFor prevFeats st.usedPrev axialTol clockTol fl dLater := by
      have : c1 ∈ c1 :: rest := List.mem_cons_self c1 rest
      rw [← hs] at this
      exact List.mem_mergeSort.mp this
    have hmin := mergeSort_head_min _ c1 rest hs
    have hfirst := mergeSort_head_first _ c1 rest hs
    refine ⟨c1, rest, hs, hc1, hmin.1, hfirst, ?_⟩
    cases rest with
    | nil =>
      right
      refine ⟨Or.inl rfl, ?_⟩
      rw [hred, hs]
      rfl
    | cons c2 rest2 =>
      by_cases hlt : qabs (c2.1 - c1.1) < eps
      · left
        refine ⟨c2, rest2, rfl, hlt, ?_⟩
        rw [hred, hs]
        simp [chooseStep, hlt]
      · right
        refine ⟨Or.inr ⟨c2, rest2, rfl, le_of_not_lt hlt⟩, ?_⟩
        rw [hred, hs]
        simp [chooseStep, hlt]

/- ### C2: every committed Match is an unambiguous minimum -/

/-- The conclusion of claim C2 for a step that committed `row`: the
committed score is the head of the sorted candidate list, is ≤ every
surviving candidate's score, and every other sorted candidate scores at
least epsilon more. -/
def matchCommitConcl (prevFeats : List Feature)
    (axialTol clockTol eps : ℚ) (st : MatchState) (fl : Feature)
    (dLater : ℚ) (row : MatchRow) : Prop :=
  ∃ c1 rest,
    (candidatesFor prevFeats st.usedPrev axialTol clockTol fl dLater).mergeSort candLe
      = c1 :: rest ∧
    row.score = c1.1 ∧ row.prev_idx = c1.2.1 ∧
    (∀ x ∈ candidatesFor prevFeats st.usedPrev axialTol clockTol fl dLater,
      row.score ≤ x.1) ∧
    (∀ x ∈ rest, eps ≤ x.1 - row.score)

/-- C2: whenever the matcher step appends a Match `row`, the chosen
candidate's score is minimal among all hard-filter survivors for that
later Feature, and every other surviving candidate scores at least the
ambiguity epsilon more (otherwise the step would have been Ambiguous). -/
theorem match_commit_min_gap (prevFeats : List Feature) (prevYear laterYear : ℤ)
    (axialTol clockTol eps : ℚ) (st : MatchState) (i : ℕ) (fl : Feature) (dLater : ℚ)
    (row : MatchRow)
    (hd : fl.distance_corrected = some dLater)
    (hcommit : (processLater prevFeats prevYear laterYear axialTol clockTol eps st i fl).matchRows
      = st.matchRows ++ [row]) :
    matchCommitConcl prevFeats axialTol clockTol eps st fl dLater row := by
  have hred := processLater_eq_chooseStep prevFeats prevYear laterYear axialTol clockTol eps
    st i fl dLater hd
  rw [hred] at hcommit
  cases hs : (candidatesFor prevFeats st.usedPrev axialTol clockTol fl dLater).mergeSort candLe with
  | nil =>
    exfalso
    rw [hs] at hcommit
    simp [chooseStep] at hcommit
  | cons c1 rest =>
    rw [hs] at hcommit
    have hsorted := List.sorted_mergeSort candLe_trans candLe_total
      (candidatesFor prevFeats st.usedPrev axialTol clockTol fl dLater)
    rw [hs] at hsorted
    have hmin := mergeSort_head_min _ c1 rest hs
    have hrow : mkMatchRow prevYear laterYear c1.2.1 i c1.1 c1.2.2 fl = row →
        row.score = c1.1 ∧ row.prev_idx = c1.2.1 := by
      intro hr; rw [← hr]; exact ⟨rfl, rfl⟩
    cases rest with
    | nil =>
      simp only [chooseStep, commitState, List.append_cancel_left_eq, List.cons.injEq,
        and_true] at hcommit
      obtain ⟨hsc, hpi⟩ := hrow hcommit
      exact ⟨c1, [], hs, hsc, hpi, by rw [hsc]; exact hmin.1, by simp⟩
    | cons c2 rest2 =>
      by_cases hlt : qabs (c2.1 - c1.1) < eps
      · exfalso
        simp [chooseStep, hlt] at hcommit
      · simp only [chooseStep, hlt, if_false, commitState, List.append_cancel_left_eq,
          List.cons.injEq, and_true] at hcommit
        obtain ⟨hsc, hpi⟩ := hrow hcommit
        have h12 : c1.1 ≤ c2.1 := hmin.2 c2 (List.mem_cons_self c2 rest2)
        have hgap : eps ≤ c2.1 - c1.1 := by
          have := le_of_not_lt hlt
          rwa [qabs_eq_abs, abs_of_nonneg (by linarith)] at this
        have htail : ∀ x ∈ rest2, c2.1 ≤ x.1 := by
          intro x hx
          have := (List.pairwise_cons.mp (List.pairwise_cons.mp hsorted).2).1 x hx
          simpa [candLe, decide_eq_true_eq] using this
        refine ⟨c1, c2 :: rest2, hs, hsc, hpi, by rw [hsc]; exact hmin.1, ?_⟩
        intro x hx
        rw [hsc]
        rcases List.mem_cons.mp hx with rfl | hx'
        · linarith
        · have := htail x hx'
          linarith

/- ### C10: missing clock values are neutral -/

/-- C10: a missing clock position on either side makes the circular clock
difference 0, so the pair passes the clock hard filter for any
non-negative clock tolerance, and the clock term contributes zero to the
match score: the score equals the weighted sum of the remaining terms. -/
theorem clock_missing_is_neutral (fp fl : Feature) (clockTol : ℚ)
    (hmiss : fp.clock_position = none ∨ fl.clock_position = none)
    (htol : 0 ≤ clockTol) :
    circularClockDiff fp.clock_position fl.clock_position = 0 ∧
    decide (circularClockDiff fp.clock_position fl.clock_position ≤ clockTol) = true ∧
    ∀ dp dl, fp.distance_corrected = some dp → fl.distance_corrected = some dl →
      scoreMatch fp fl = some (W_DIST * qabs (dp - dl)
        + W_DEPTH * optAbsDiff fp.depth_percent fl.depth_percent
        + W_LENGTH * optAbsDiff fp.length_mm fl.length_mm
        + W_WIDTH * optAbsDiff fp.width_mm fl.width_mm
        + unknownPenalty fp.feature_type fl.feature_type) := by
  have hz : circularClockDiff fp.clock_position fl.clock_position = 0 := by
    rcases hmiss with h | h <;> rw [h]
    · rfl
    · cases fp.clock_position <;> rfl
  refine ⟨hz, by rw [hz]; simpa using htol, ?_⟩
  intro dp dl hdp hdl
  simp only [scoreMatch, hdp, hdl, scoreVal, hz, mul_zero, add_zero]

/- ### C3: match indices are each injective -/

/-- Loop invariant for the matcher: committed rows have their indices in
the used sets, both index columns are duplicate-free, and every used
later index is below the next loop index `n`. -/
def matchInv (st : MatchState) (n : ℕ) : Prop :=
  (∀ r ∈ st.matchRows, r.prev_idx ∈ st.usedPrev) ∧
  (st.matchRows.map (fun r => r.prev_idx)).Nodup ∧
  (∀ r ∈ st.matchRows, r.later_idx ∈ st.usedLater) ∧
  (st.matchRows.map (fun r => r.later_idx)).Nodup ∧
  (∀ k ∈ st.usedLater, k < n)

theorem matchInv_step (prevFeats : List Feature) (prevYear laterYear : ℤ)
    (axialTol clockTol eps : ℚ) (st : MatchState) (n : ℕ) (fl : Feature)
    (h : matchInv st n) :
    matchInv (processLater prevFeats prevYear laterYear axialTol clockTol eps st n fl)
      (n + 1) := by
  obtain ⟨hp, hpn, hl, hln, hb⟩ := h
  rcases processLater_shape prevFeats prevYear laterYear axialTol clockTol eps st n fl with
    heq | ⟨a, heq⟩ | ⟨c1, hnu, heq⟩ <;> rw [heq]
  · exact ⟨hp, hpn, hl, hln, fun k hk => Nat.lt_succ_of_lt (hb k hk)⟩
  · exact ⟨hp, hpn, hl, hln, fun k hk => Nat.lt_succ_of_lt (hb k hk)⟩
  · unfold commitState
    refine ⟨?_, ?_, ?_, ?_, ?_⟩
    · intro r hr
      rcases List.mem_append.mp hr with hr' | hr'
      · exact List.mem_cons_of_mem _ (hp r hr')
      · simp only [List.mem_singleton] at hr'
        rw [hr']
        exact List.mem_cons_self _ _
    · rw [List.map_append, List.nodup_append]
      refine ⟨hpn, List.nodup_singleton _, ?_⟩
      intro x hx hx'
      simp only [List.map_cons, List.map_nil, List.mem_singleton, mkMatchRow] at hx'
      obtain ⟨r, hr, hrx⟩ := List.mem_map.mp hx
      apply hnu
      rw [← hx', ← hrx]
      exact hp r hr
    · intro r hr
      rcases List.mem_append.mp hr with hr' | hr'
      · exact List.mem_cons_of_mem _ (hl r hr')
      · simp only [List.mem_singleton] at hr'
        rw [hr']
        exact List.mem_cons_self _ _
    · rw [List.map_append, List.nodup_append]
      refine ⟨hln, List.nodup_singleton _, ?_⟩
      intro x hx hx'
      simp only [List.map_cons, List.map_nil, List.mem_singleton, mkMatchRow] at hx'
      obtain ⟨r, hr, hrx⟩ := List.mem_map.mp hx
      have : x ∈ st.usedLater := by rw [← hrx]; exact hl r hr
      have := hb x this
      omega
    · intro k hk
      rcases List.mem_cons.mp hk with rfl | hk'
      · exact Nat.lt_succ_self _
      · exact Nat.lt_succ_of_lt (hb k hk')

theorem matchInv_foldl (prevFeats : List Feature) (prevYear laterYear : ℤ)
    (axialTol clockTol eps : ℚ) :
    ∀ (l : List Feature) (n : ℕ) (st : MatchState), matchInv st n →
      matchInv ((l.enumFrom n).foldl
        (fun st p => processLater prevFeats prevYear laterYear axialTol clockTol eps st p.1 p.2)
        st) (n + l.length) := by
  intro l
  induction l with
  | nil => intro n st h; simpa using h
  | cons a l ih =>
    intro n st h
    rw [List.enumFrom_cons, List.foldl_cons]
    have h1 := matchInv_step prevFeats prevYear laterYear axialTol clockTol eps st n a h
    have h2 := ih (n + 1)
      (processLater prevFeats prevYear laterYear axialTol clockTol eps st n a) h1
    have harith : n + 1 + l.length = n + (a :: l).length := by
      simp [List.length_cons]; omega
    rwa [harith] at h2

/-- C3: in the Matches table returned by `matchAnomalies`, the previous-run
indices are pairwise distinct and the later-run indices are pairwise
distinct — no Feature of either run appears in more than one Match. -/
theorem match_indices_injective (dfPrev dfLater : List Feature) (prevYear laterYear : ℤ)
    (axialTol clockTol eps : ℚ) :
    ((matchAnomalies dfPrev dfLater prevYear laterYear axialTol clockTol eps).matchRows.map
      (fun r => r.prev_idx)).Nodup ∧
    ((matchAnomalies dfPrev dfLater prevYear laterYear axialTol clockTol eps).matchRows.map
      (fun r => r.later_idx)).Nodup := by
  unfold matchAnomalies
  have h0 : matchInv ⟨[], [], [], []⟩ 0 := by
    refine ⟨?_, ?_, ?_, ?_, ?_⟩ <;> simp
  have hinv := matchInv_foldl
    (dfPrev.filter (fun f => isAnomaly f.feature_type)) prevYear laterYear
    axialTol clockTol eps
    (dfLater.filter (fun f => isAnomaly f.feature_type)) 0 ⟨[], [], [], []⟩ h0
  rw [show ∀ l : List Feature, l.enumFrom 0 = l.enum from fun _ => rfl] at hinv
  exact ⟨hinv.2.1, hinv.2.2.2.1⟩

/- ### Concrete sample rows for witnesses -/

def wPrevA : Feature := ⟨none, none, none, some 10, none, none, none, none⟩
def wPrevB : Feature := ⟨none, none, none, some (51/5), none, none, none, none⟩
def wLater : Feature := ⟨none, none, none, some (101/10), none, none, none, none⟩
def wState : MatchState := ⟨[], [], [], []⟩

theorem wCands2_eval :
    candidatesFor [wPrevA, wPrevB] wState.usedPrev AXIAL_TOL_M CLOCK_TOL_DEG
      wLater (101/10) = [(101/10, 0, wPrevA), (101/10, 1, wPrevB)] := by
  norm_num [candidatesFor, List.enum, List.enumFrom, List.filterMap, hardFilter,
    typeCompatible, toFeatureFamily, circularClockDiff, qabs, scoreVal, optAbsDiff,
    unknownPenalty, W_DIST, W_CLOCK, W_DEPTH, W_LENGTH, W_WIDTH, AXIAL_TOL_M,
    CLOCK_TOL_DEG, wPrevA, wPrevB, wLater, wState]
  simp [if_neg (show ¬(Family.unknown = Family.weld) from by decide)]

theorem wCands1_eval :
    candidatesFor [wPrevA] wState.usedPrev AXIAL_TOL_M CLOCK_TOL_DEG
      wLater (101/10) = [(101/10, 0, wPrevA)] := by
  norm_num [candidatesFor, List.enum, List.enumFrom, List.filterMap, hardFilter,
    typeCompatible, toFeatureFamily, circularClockDiff, qabs, scoreVal, optAbsDiff,
    unknownPenalty, W_DIST, W_CLOCK, W_DEPTH, W_LENGTH, W_WIDTH, AXIAL_TOL_M,
    CLOCK_TOL_DEG, wPrevA, wLater, wState]
  simp [if_neg (show ¬(Family.unknown = Family.weld) from by decide)]

theorem match_anomalies_step_spec_witness :
    wLater.distance_corrected = some (101/10) ∧
    candidatesFor [wPrevA, wPrevB] wState.usedPrev AXIAL_TOL_M CLOCK_TOL_DEG
      wLater (101/10) ≠ [] ∧
    matchStepConcl [wPrevA, wPrevB] 2015 2022 AXIAL_TOL_M CLOCK_TOL_DEG
      MATCH_SCORE_EPSILON wState 0 wLater (101/10) :=
  ⟨rfl, by rw [wCands2_eval]; simp,
    match_anomalies_step_spec [wPrevA, wPrevB] 2015 2022 AXIAL_TOL_M CLOCK_TOL_DEG
      MATCH_SCORE_EPSILON wState 0 wLater (101/10) rfl (by rw [wCands2_eval]; simp)⟩

theorem wCommit_eval :
    (processLater [wPrevA] 2015 2022 AXIAL_TOL_M CLOCK_TOL_DEG MATCH_SCORE_EPSILON
        wState 0 wLater).matchRows
      = wState.matchRows ++ [mkMatchRow 2015 2022 0 0 (101/10) wPrevA wLater] := by
  rw [processLater_eq_chooseStep [wPrevA] 2015 2022 AXIAL_TOL_M CLOCK_TOL_DEG
    MATCH_SCORE_EPSILON wState 0 wLater (101/10) rfl, wCands1_eval]
  simp [List.mergeSort, chooseStep, commitState]

theorem match_commit_min_gap_witness :
    wLater.distance_corrected = some (101/10) ∧
    (processLater [wPrevA] 2015 2022 AXIAL_TOL_M CLOCK_TOL_DEG MATCH_SCORE_EPSILON
        wState 0 wLater).matchRows
      = wState.matchRows ++ [mkMatchRow 2015 2022 0 0 (101/10) wPrevA wLater] ∧
    matchCommitConcl [wPrevA] AXIAL_TOL_M CLOCK_TOL_DEG MATCH_SCORE_EPSILON wState
      wLater (101/10) (mkMatchRow 2015 2022 0 0 (101/10) wPrevA wLater) :=
  ⟨rfl, wCommit_eval,
    match_commit_min_gap [wPrevA] 2015 2022 AXIAL_TOL_M CLOCK_TOL_DEG
      MATCH_SCORE_EPSILON wState 0 wLater (101/10)
      (mkMatchRow 2015 2022 0 0 (101/10) wPrevA wLater) rfl wCommit_eval⟩

theorem clock_missing_is_neutral_witness :
    (wPrevA.clock_position = none ∨ wLater.clock_position = none) ∧
    ((0 : ℚ) ≤ CLOCK_TOL_DEG) ∧
    (circularClockDiff wPrevA.clock_position wLater.clock_position = 0 ∧
     decide (circularClockDiff wPrevA.clock_position wLater.clock_position
        ≤ CLOCK_TOL_DEG) = true ∧
     ∀ dp dl, wPrevA.distance_corrected = some dp → wLater.distance_corrected = some dl →
       scoreMatch wPrevA wLater = some (W_DIST * qabs (dp - dl)
         + W_DEPTH * optAbsDiff wPrevA.depth_percent wLater.depth_percent
         + W_LENGTH * optAbsDiff wPrevA.length_mm wLater.length_mm
         + W_WIDTH * optAbsDiff wPrevA.width_mm wLater.width_mm
         + unknownPenalty wPrevA.feature_type wLater.feature_type)) :=
  ⟨Or.inl rfl, by norm_num [CLOCK_TOL_DEG],
    clock_missing_is_neutral wPrevA wLater CLOCK_TOL_DEG (Or.inl rfl)
      (by norm_num [CLOCK_TOL_DEG])⟩

/- ### Weld-anchored alignment (align.py)

Weld tables are reduced to their `distance_raw_m` column: a list of
optional distances (`none` models a NaN distance, which the joint-boundary
fallback can produce for a joint whose distances are all missing).  The
run-local uid of a weld is `"W" ++ index` in both code paths, so uids are
positional and carried implicitly by list position.  The `Option`
comparison helpers spell out Python's NaN comparison semantics
(any comparison with NaN is `False`). -/

def weldPatterns : List String := ["weld", "gw", "girth"]

def isWeld (event : Option String) : Bool :=
  match event with
  | none => false
  | some s => weldPatterns.any (fun p => containsSub (pyLower (pyStrip s)) p)

def osub (a b : Option ℚ) : Option ℚ :=
  match a, b with
  | some x, some y => some (x - y)
  | _, _ => none

def omul (a b : Option ℚ) : Option ℚ :=
  match a, b with
  | some x, some y => some (x * y)
  | _, _ => none

def oadd (a b : Option ℚ) : Option ℚ :=
  match a, b with
  | some x, some y => some (x + y)
  | _, _ => none

def odiv (a b : Option ℚ) : Option ℚ :=
  match a, b with
  | some x, some y => some (x / y)
  | _, _ => none

/-- `a ≤ q` where `a` may be NaN (then `False`). -/
def oLeQ (a : Option ℚ) (q : ℚ) : Bool :=
  match a with
  | some x => decide (x ≤ q)
  | none => false

/-- `q ≤ a` where `a` may be NaN (then `False`). -/
def qLeO (q : ℚ) (a : Option ℚ) : Bool :=
  match a with
  | some x => decide (q ≤ x)
  | none => false

/-- `q < a` where `a` may be NaN (then `False`). -/
def qLtO (q : ℚ) (a : Option ℚ) : Bool :=
  match a with
  | some x => decide (q < x)
  | none => false

/-- `a < q` where `a` may be NaN (then `False`). -/
def oLtQ (a : Option ℚ) (q : ℚ) : Bool :=
  match a with
  | some x => decide (x < q)
  | none => false

/-- Ordering used by `sort_values`: ascending with missing values last. -/
def oLeNaLast (a b : Option ℚ) : Bool :=
  match a, b with
  | some x, some y => decide (x ≤ y)
  | some _, none => true
  | none, some _ => false
  | none, none => true

/-- align.py `get_welds_explicit`: rows with a weld-marked feature type;
`None` when there are none or when all their raw distances are missing;
otherwise the present distances sorted ascending. -/
def getWeldsExplicit (df : List Feature) : Option (List (Option ℚ)) :=
  let w := df.filter (fun f => isWeld f.feature_type)
  if w.isEmpty then none
  else
    let w2 := w.filterMap (fun f => f.distance_raw)
    if w2.isEmpty then none
    else some ((w2.mergeSort (fun a b => decide (a ≤ b))).map some)

/-- align.py `get_welds_from_joints`: one weld per distinct joint number at
the minimum observed distance within the joint (`none` when every distance
of the joint is missing, as pandas `min` of all-NaN is NaN), sorted by
that distance with missing distances last. -/
def getWeldsFromJoints (df : List Feature) : List (Option ℚ) :=
  let withJoint := df.filter (fun f => f.joint_number.isSome)
  let joints := (withJoint.filterMap (fun f => f.joint_number)).dedup.mergeSort
    (fun a b => decide (a ≤ b))
  let mins := joints.map (fun j =>
    let ds := (withJoint.filter (fun f => f.joint_number = some j)).filterMap
      (fun f => f.distance_raw)
    ds.foldr (fun d acc =>
      match acc with
      | none => some d
      | some m => some (min d m)) none)
  mins.mergeSort oLeNaLast

/-- align.py `get_welds`: explicit weld markers preferred, joint-boundary
fallback otherwise (empty when neither exists). -/
def getWelds (df : List Feature) : List (Option ℚ) :=
  match getWeldsExplicit df with
  | some w => w
  | none => getWeldsFromJoints df

structure WeldMapRow where
  distance_prev : Option ℚ
  distance_later : Option ℚ
  segment_id : ℕ
  scale : Option ℚ
  offset : Option ℚ
  segment_length_prev : Option ℚ
  segment_length_later : Option ℚ
  align_flag : String
deriving Repr, DecidableEq, Inhabited

/-- align.py `build_weld_map`: one row per weld index up to the shorter
sequence; the upper weld of the last segment falls back to the lower one
when the sequence has no further weld.  A NaN later-segment length fails
the `abs(...) < min` test (NaN comparison), so it is not degenerate. -/
def weldMapRow (weldsPrev weldsLater : List (Option ℚ)) (i : ℕ) : WeldMapRow :=
  let dpI := weldsPrev.getD i none
  let dpI1 := if i + 1 < weldsPrev.length then weldsPrev.getD (i + 1) none else dpI
  let dlI := weldsLater.getD i none
  let dlI1 := if i + 1 < weldsLater.length then weldsLater.getD (i + 1) none else dlI
  let segLenPrev := osub dpI1 dpI
  let segLenLater := osub dlI1 dlI
  let degenerate :=
    match segLenLater with
    | some v => decide (qabs v < SEGMENT_LENGTH_MIN_M)
    | none => false
  if degenerate then
    { distance_prev := dpI, distance_later := dlI, segment_id := i,
      scale := some 1, offset := some 0,
      segment_length_prev := segLenPrev, segment_length_later := segLenLater,
      align_flag := "degenerate_segment" }
  else
    let scale := odiv segLenPrev segLenLater
    { distance_prev := dpI, distance_later := dlI, segment_id := i,
      scale := scale, offset := osub dpI (omul scale dlI),
      segment_length_prev := segLenPrev, segment_length_later := segLenLater,
      align_flag := "" }

def buildWeldMap (weldsPrev weldsLater : List (Option ℚ)) : List WeldMapRow :=
  (List.range (min weldsPrev.length weldsLater.length)).map (weldMapRow weldsPrev weldsLater)

/-- align.py `_segment_transform`. -/
def segmentTransform (dLaterLo dLaterHi dPrevLo dPrevHi : Option ℚ) (dRaw : ℚ) :
    Option ℚ × String :=
  match osub dLaterHi dLaterLo with
  | none => (none, "")
  | some v =>
    if qabs v < SEGMENT_LENGTH_MIN_M then (some dRaw, "degenerate_segment")
    else
      let scale := odiv (osub dPrevHi dPrevLo) (some v)
      (oadd (omul scale (some dRaw)) (osub dPrevLo (omul scale dLaterLo)), "")

/-- The segment search of align.py `align_run_to_reference`: first segment
whose later interval contains `d`; clamp below the first weld to segment 0
and above the last weld to the last segment; 0 if nothing fires
(e.g. NaN weld distances make every comparison `False`). -/
def findSegAux (dl : List (Option ℚ)) (n : ℕ) (d : ℚ) (i : ℕ) : ℕ :=
  if i < n - 1 then
    if oLeQ (dl.getD i none) d && qLeO d (dl.getD (i + 1) none) then i
    else if qLtO d (dl.getD 0 none) then 0
    else if oLtQ (dl.getD (n - 1) none) d then n - 2
    else findSegAux dl n d (i + 1)
  else 0
termination_by n - 1 - i

structure AlignFlag where
  row : ℕ
  reason : String
  prev : ℚ
  curr : ℚ
deriving Repr, DecidableEq

/-- The per-row loop of align.py `align_run_to_reference` (the `n ≥ 2`
path): rows with a missing raw distance get a missing corrected distance
and do not update the running previous value; a corrected value more than
`1e-9` below its predecessor is flagged `monotonic_violation`. -/
def alignLoop (weldsPrev weldsLater : List (Option ℚ)) (n : ℕ) :
    List (ℕ × Feature) → Option ℚ → List Feature × List AlignFlag
  | [], _ => ([], [])
  | (idx, f) :: rest, prevC =>
    match f.distance_raw with
    | none =>
      let r := alignLoop weldsPrev weldsLater n rest prevC
      ({ f with distance_corrected := none } :: r.1, r.2)
    | some d =>
      let seg := findSegAux weldsLater n d 0
      let c := (segmentTransform (weldsLater.getD seg none) (weldsLater.getD (seg + 1) none)
        (weldsPrev.getD seg none) (weldsPrev.getD (seg + 1) none) d).1
      let newFlags :=
        match prevC, c with
        | some pc, some cc =>
          if cc < pc - 1/1000000000 then [⟨idx, "monotonic_violation", pc, cc⟩] else []
        | _, _ => []
      let r := alignLoop weldsPrev weldsLater n rest c
      ({ f with distance_corrected := c } :: r.1, newFlags ++ r.2)

/-- align.py `align_run_to_reference`: identity (corrected := raw) with no
flags when fewer than two weld pairs exist, else the segment transform. -/
def alignRunToReference (df : List Feature) (weldsPrev weldsLater : List (Option ℚ)) :
    List Feature × List AlignFlag :=
  let n := min weldsPrev.length weldsLater.length
  if n < 2 then (df.map (fun f => { f with distance_corrected := f.distance_raw }), [])
  else alignLoop weldsPrev weldsLater n df.enum none

/-- align.py `align_two_runs` for the two runs' normalized tables (the
`ValueError` for a year absent from the input dict is outside the model:
both tables are given).  Returns ((aligned prev, aligned later), weld map,
alignment flags). -/
def alignTwoRuns (dfPrev dfLater : List Feature) :
    (List Feature × List Feature) × List WeldMapRow × List AlignFlag :=
  let weldsPrev := getWelds dfPrev
  let weldsLater := getWelds dfLater
  if weldsPrev.length < 2 ∨ weldsLater.length < 2 then
    ((dfPrev.map (fun f => { f with distance_corrected := f.distance_raw }),
      dfLater.map (fun f => { f with distance_corrected := f.distance_raw })), [], [])
  else
    let weldMap := buildWeldMap weldsPrev weldsLater
    let prevAligned := dfPrev.map (fun f => { f with distance_corrected := f.distance_raw })
    let r := alignRunToReference dfLater weldsPrev weldsLater
    ((prevAligned, r.1), weldMap, r.2)

/- ### C4: weld map shape and per-segment transform -/

/-- The per-row conclusion of claim C4 at segment `i`: the row carries the
lower weld distances and the segment lengths `distance[i+1] − distance[i]`
(the upper index falling back to `i` past the end of a sequence); a later
segment length whose absolute value is below the minimum threshold makes
the row `degenerate_segment` with scale 1 and offset 0; otherwise
`scale = Δdistance_prev / Δdistance_later`,
`offset = distance_prev_lo − scale·distance_later_lo`, and the flag is
empty. -/
def weldMapRowConclAt (wp wl : List (Option ℚ)) (i : ℕ) (row : WeldMapRow) : Prop :=
  let dpI := wp.getD i none
  let dpI1 := if i + 1 < wp.length then wp.getD (i + 1) none else dpI
  let dlI := wl.getD i none
  let dlI1 := if i + 1 < wl.length then wl.getD (i + 1) none else dlI
  row.segment_id = i ∧ row.distance_prev = dpI ∧ row.distance_later = dlI ∧
  row.segment_length_prev = osub dpI1 dpI ∧
  row.segment_length_later = osub dlI1 dlI ∧
  ((∃ v, osub dlI1 dlI = some v ∧ qabs v < SEGMENT_LENGTH_MIN_M) →
    row.align_flag = "degenerate_segment" ∧ row.scale = some 1 ∧ row.offset = some 0) ∧
  ((∀ v, osub dlI1 dlI = some v → ¬ qabs v < SEGMENT_LENGTH_MIN_M) →
    row.align_flag = "" ∧ row.scale = odiv (osub dpI1 dpI) (osub dlI1 dlI) ∧
    row.offset = osub dpI (omul (odiv (osub dpI1 dpI) (osub dlI1 dlI)) dlI))

def weldMapRowConcl (wp wl : List (Option ℚ)) (i : ℕ) : Prop :=
  weldMapRowConclAt wp wl i ((buildWeldMap wp wl).getD i default)

theorem weldMapRow_spec (wp wl : List (Option ℚ)) (i : ℕ) :
    weldMapRowConclAt wp wl i (weldMapRow wp wl i) := by
  simp only [weldMapRowConclAt, weldMapRow]
  cases hsl : osub (if i + 1 < wl.length then wl.getD (i + 1) none else wl.getD i none)
      (wl.getD i none) with
  | none =>
    refine ⟨rfl, rfl, rfl, rfl, rfl, ?_, fun _ => ⟨rfl, rfl, rfl⟩⟩
    rintro ⟨v, hv, -⟩
    exact Option.noConfusion hv
  | some v =>
    by_cases hdeg : qabs v < SEGMENT_LENGTH_MIN_M
    · rw [if_pos (by simpa using hdeg)]
      refine ⟨rfl, rfl, rfl, rfl, rfl, fun _ => ⟨rfl, rfl, rfl⟩, ?_⟩
      intro hall
      exact absurd hdeg (hall v rfl)
    · rw [if_neg (by simpa using hdeg)]
      refine ⟨rfl, rfl, rfl, rfl, rfl, ?_, fun _ => ⟨rfl, rfl, rfl⟩⟩
      rintro ⟨w, hw, hww⟩
      rw [← Option.some.inj hw] at hww
      exact absurd hww hdeg

/-- C4: `buildWeldMap` emits exactly `min` of the two weld counts rows, and
every row satisfies the degenerate/scale/offset dichotomy of the claim. -/
theorem buildWeldMap_spec (wp wl : List (Option ℚ)) :
    (buildWeldMap wp wl).length = min wp.length wl.length ∧
    ∀ i, i < min wp.length wl.length → weldMapRowConcl wp wl i := by
  constructor
  · unfold buildWeldMap
    rw [List.length_map, List.length_range]
  · intro i hi
    unfold weldMapRowConcl
    have hrow : (buildWeldMap wp wl).getD i default = weldMapRow wp wl i := by
      unfold buildWeldMap
      rw [List.getD_eq_getElem?_getD, List.getElem?_map, List.getElem?_range hi]
      rfl
    rw [hrow]
    exact weldMapRow_spec wp wl i

theorem buildWeldMap_spec_witness :
    (0 : ℕ) < min ([some 0, some 100, some 200] : List (Option ℚ)).length
      ([some 0, some 98, some 205] : List (Option ℚ)).length ∧
    weldMapRowConcl [some 0, some 100, some 200] [some 0, some 98, some 205] 0 :=
  ⟨by norm_num,
    (buildWeldMap_spec [some 0, some 100, some 200] [some 0, some 98, some 205]).2 0
      (by norm_num)⟩

/- ### C5: sparse welds degrade to the identity transform -/

/-- C5: with fewer than two welds on either side, `alignTwoRuns` returns
both runs with `distance_corrected` equal to `distance_raw` (all rows
kept), an empty weld map and no alignment flags; likewise
`alignRunToReference` with fewer than two weld pairs is the identity with
no flags.  (No exception path exists: the functions are total.) -/
theorem align_sparse_identity (dfPrev dfLater df : List Feature)
    (wp wl : List (Option ℚ))
    (hsparse : (getWelds dfPrev).length < 2 ∨ (getWelds dfLater).length < 2)
    (hn : min wp.length wl.length < 2) :
    ((alignTwoRuns dfPrev dfLater).1.1.length = dfPrev.length ∧
     (alignTwoRuns dfPrev dfLater).1.2.length = dfLater.length ∧
     (∀ f ∈ (alignTwoRuns dfPrev dfLater).1.1, f.distance_corrected = f.distance_raw) ∧
     (∀ f ∈ (alignTwoRuns dfPrev dfLater).1.2, f.distance_corrected = f.distance_raw) ∧
     (alignTwoRuns dfPrev dfLater).2.1 = [] ∧
     (alignTwoRuns dfPrev dfLater).2.2 = []) ∧
    ((alignRunToReference df wp wl).1.length = df.length ∧
     (∀ f ∈ (alignRunToReference df wp wl).1, f.distance_corrected = f.distance_raw) ∧
     (alignRunToReference df wp wl).2 = []) := by
  have hmap : ∀ (l : List Feature)
      (f : Feature), f ∈ l.map (fun g => { g with distance_corrected := g.distance_raw }) →
      f.distance_corrected = f.distance_raw := by
    intro l f hf
    obtain ⟨g, -, rfl⟩ := List.mem_map.mp hf
    rfl
  constructor
  · unfold alignTwoRuns
    rw [if_pos hsparse]
    exact ⟨List.length_map _ _, List.length_map _ _, hmap dfPrev, hmap dfLater, rfl, rfl⟩
  · unfold alignRunToReference
    rw [if_pos hn]
    exact ⟨List.length_map _ _, hmap df, rfl⟩

theorem align_sparse_identity_witness :
    ((getWelds [wPrevA]).length < 2 ∨ (getWelds [wLater]).length < 2) ∧
    min ([] : List (Option ℚ)).length ([some 3] : List (Option ℚ)).length < 2 ∧
    (((alignTwoRuns [wPrevA] [wLater]).1.1.length = 1 ∧
      (alignTwoRuns [wPrevA] [wLater]).1.2.length = 1 ∧
      (∀ f ∈ (alignTwoRuns [wPrevA] [wLater]).1.1,
        f.distance_corrected = f.distance_raw) ∧
      (∀ f ∈ (alignTwoRuns [wPrevA] [wLater]).1.2,
        f.distance_corrected = f.distance_raw) ∧
      (alignTwoRuns [wPrevA] [wLater]).2.1 = [] ∧
      (alignTwoRuns [wPrevA] [wLater]).2.2 = []) ∧
     ((alignRunToReference [wPrevA] [] [some 3]).1.length = 1 ∧
      (∀ f ∈ (alignRunToReference [wPrevA] [] [some 3]).1,
        f.distance_corrected = f.distance_raw) ∧
      (alignRunToReference [wPrevA] [] [some 3]).2 = [])) :=
  ⟨Or.inl (by simp [getWelds, getWeldsExplicit, getWeldsFromJoints, isWeld, wPrevA,
      List.mergeSort]),
   by norm_num,
   align_sparse_identity [wPrevA] [wLater] [wPrevA] [] [some 3]
     (Or.inl (by simp [getWelds, getWeldsExplicit, getWeldsFromJoints, isWeld, wPrevA,
       List.mergeSort]))
     (by norm_num)⟩

/- ### Clock normalization (normalize.py `_clock_to_degrees`)

The input is NaN (`na`), a number, or a string.  String processing follows
the source: strip, turn newlines/carriage returns into spaces, test for
emptiness, replace `:` and `.` by spaces, split on whitespace, and parse
the first two tokens with `int(float(tok))` (missing tokens default to 0).
Modelling note: `parseIntTok` models `int(float(tok))` for tokens that are
optionally-signed strings of decimal digits — the only forms a clock-like
string can produce once `:` and `.` have been replaced; exotic Python
float literals (exponents, `inf`, `nan`) are outside the model's input
domain. -/

inductive ClockInput where
  | na
  | num (f : ℚ)
  | str (s : String)

def pyReplaceChars (s : String) (targets : List Char) : String :=
  String.mk (s.data.map (fun c => if c ∈ targets then ' ' else c))

def pySplitAux : List Char → List Char → List String
  | [], acc => if acc.isEmpty then [] else [String.mk acc.reverse]
  | c :: cs, acc =>
    if c.isWhitespace then
      if acc.isEmpty then pySplitAux cs [] else String.mk acc.reverse :: pySplitAux cs []
    else pySplitAux cs (c :: acc)

/-- Python `str.split()`: split on whitespace runs, no empty tokens. -/
def pySplit (s : String) : List String := pySplitAux s.data []

def parseDigits (cs : List Char) : Option ℕ :=
  if cs ≠ [] ∧ cs.all Char.isDigit then
    some (cs.foldl (fun n c => 10 * n + (c.toNat - 48)) 0)
  else none

def parseIntTok (t : String) : Option ℤ :=
  match t.data with
  | '+' :: cs => (parseDigits cs).map (fun n => (n : ℤ))
  | '-' :: cs => (parseDigits cs).map (fun n => -(n : ℤ))
  | cs => (parseDigits cs).map (fun n => (n : ℤ))

/-- `str(v).strip().replace("\n", " ").replace("\r", " ")`. -/
def clockStage1 (s : String) : String :=
  pyReplaceChars (pyStrip s) ['\n', '\r']

/-- `s.replace(":", " ").replace(".", " ").split()`. -/
def clockParts (s : String) : List String :=
  pySplit (pyReplaceChars (clockStage1 s) [':', '.'])

/-- `int(float(parts[0])) if parts else 0`. -/
def clockHourTok (s : String) : Option ℤ :=
  match clockParts s with
  | [] => some 0
  | t :: _ => parseIntTok t

/-- `int(float(parts[1])) if len(parts) > 1 else 0`. -/
def clockMinTok (s : String) : Option ℤ :=
  match clockParts s with
  | _ :: t :: _ => parseIntTok t
  | _ => some 0

/-- normalize.py `_clock_to_degrees`.  A numeric value inside `[0, 360]`
(inclusive on both ends) is returned unchanged, anything else is reduced
mod 360; a parse failure of either token yields `none` (the
`ValueError`/`IndexError` handler). -/
def clockToDegrees : ClockInput → Option ℚ
  | ClockInput.na => none
  | ClockInput.num f => if 0 ≤ f ∧ f ≤ 360 then some f else some (qmod f 360)
  | ClockInput.str s =>
    if clockStage1 s = "" then none
    else
      match clockHourTok s, clockMinTok s with
      | some h, some m => some (qmod (((h % 12 : ℤ) : ℚ) * 30 + (m : ℚ) / 2) 360)
      | _, _ => none

theorem qmod_nonneg (x y : ℚ) (hy : 0 < y) : 0 ≤ qmod x y := by
  unfold qmod
  have h1 : (⌊x / y⌋ : ℚ) ≤ x / y := Int.floor_le _
  have h2 : y * (⌊x / y⌋ : ℚ) ≤ y * (x / y) := by
    exact mul_le_mul_of_nonneg_left h1 (le_of_lt hy)
  rw [mul_div_cancel₀ x (ne_of_gt hy)] at h2
  linarith

theorem qmod_lt (x y : ℚ) (hy : 0 < y) : qmod x y < y := by
  unfold qmod
  have h1 : x / y < (⌊x / y⌋ : ℚ) + 1 := Int.lt_floor_add_one _
  have h2 : y * (x / y) < y * ((⌊x / y⌋ : ℚ) + 1) := by
    exact mul_lt_mul_of_pos_left h1 hy
  rw [mul_div_cancel₀ x (ne_of_gt hy)] at h2
  nlinarith

/- ### C6: clock conversion -/

/-- C6 counterexample: the claim says any numeric input is converted to
its value mod 360, but the numeric input 360 is returned unchanged
(`some 360`) by the `0 <= f <= 360` fast path, while 360 mod 360 = 0. -/
theorem clockToDegrees_num360_counterexample :
    clockToDegrees (ClockInput.num 360) = some 360 ∧ qmod 360 360 = 0 ∧
    clockToDegrees (ClockInput.num 360) ≠ some (qmod 360 360) := by
  have h1 : clockToDegrees (ClockInput.num 360) = some 360 := by
    simp only [clockToDegrees]
    rw [if_pos (by norm_num)]
  have h2 : qmod 360 360 = 0 := by
    unfold qmod
    rw [show ((360 : ℚ) / 360) = 1 by norm_num, Int.floor_one]
    norm_num
  refine ⟨h1, h2, ?_⟩
  rw [h1, h2]
  simp

/-- C6 (amended): a numeric clock inside [0, 360] is returned unchanged
and any other numeric clock is reduced into [0, 360) by mod 360 (the
result is always congruent to the input modulo 360 and lies in [0, 360]);
NaN and blank strings give the unknown value `none`; a string whose first
two tokens both parse gives the canonical representative of
(hour mod 12)·30 + minute/2 modulo 360; a string with an unparsable hour
or minute token gives `none` — no exception escapes. -/
theorem clockToDegrees_spec :
    (∀ f : ℚ, ∃ r, clockToDegrees (ClockInput.num f) = some r ∧
      (∃ k : ℤ, r = f - 360 * k) ∧ 0 ≤ r ∧ r ≤ 360 ∧ (0 ≤ f → f ≤ 360 → r = f)) ∧
    clockToDegrees ClockInput.na = none ∧
    (∀ s, clockStage1 s = "" → clockToDegrees (ClockInput.str s) = none) ∧
    (∀ s h m, clockStage1 s ≠ "" → clockHourTok s = some h → clockMinTok s = some m →
      ∃ r, clockToDegrees (ClockInput.str s) = some r ∧
        (∃ k : ℤ, r = ((h % 12 : ℤ) : ℚ) * 30 + (m : ℚ) / 2 - 360 * k) ∧
        0 ≤ r ∧ r < 360) ∧
    (∀ s, clockStage1 s ≠ "" → (clockHourTok s = none ∨ clockMinTok s = none) →
      clockToDegrees (ClockInput.str s) = none) := by
  refine ⟨?_, rfl, ?_, ?_, ?_⟩
  · intro f
    by_cases h : 0 ≤ f ∧ f ≤ 360
    · refine ⟨f, ?_, ⟨0, by ring⟩, h.1, h.2, fun _ _ => rfl⟩
      simp only [clockToDegrees]
      rw [if_pos h]
    · refine ⟨qmod f 360, ?_, ⟨⌊f / 360⌋, by unfold qmod; ring⟩,
        qmod_nonneg f 360 (by norm_num), le_of_lt (qmod_lt f 360 (by norm_num)), ?_⟩
      · simp only [clockToDegrees]
        rw [if_neg h]
      · intro h1 h2
        exact absurd ⟨h1, h2⟩ h
  · intro s hs
    simp only [clockToDegrees]
    rw [if_pos hs]
  · intro s h m hne hh hm
    refine ⟨qmod (((h % 12 : ℤ) : ℚ) * 30 + (m : ℚ) / 2) 360, ?_,
      ⟨⌊(((h % 12 : ℤ) : ℚ) * 30 + (m : ℚ) / 2) / 360⌋, by unfold qmod; ring⟩,
      qmod_nonneg _ 360 (by norm_num), qmod_lt _ 360 (by norm_num)⟩
    simp only [clockToDegrees]
    rw [if_neg hne, hh, hm]
  · intro s hne hcase
    simp only [clockToDegrees]
    rw [if_neg hne]
    rcases hcase with hc | hc
    · rw [hc]
    · rw [hc]
      cases clockHourTok s <;> rfl

theorem clockToDegrees_spec_witness :
    clockStage1 ("09:30") ≠ "" ∧ clockHourTok ("09:30") = some 9 ∧
    clockMinTok ("09:30") = some 30 ∧
    (∃ r, clockToDegrees (ClockInput.str ("09:30")) = some r ∧
      (∃ k : ℤ, r = ((9 % 12 : ℤ) : ℚ) * 30 + (30 : ℚ) / 2 - 360 * k) ∧
      0 ≤ r ∧ r < 360) :=
  ⟨by decide, by decide, by decide,
    clockToDegrees_spec.2.2.2.1 ("09:30") 9 30 (by decide) (by decide) (by decide)⟩

/- ### Growth rates (growth.py)

`compute_growth_for_matches` returns the Matches table unchanged when
`years <= 0` (modelled by `Sum.inl`) and otherwise the table augmented
with the rate columns and the growth flag (`Sum.inr`).  The flag lambda
sees a missing rate as pandas NaN/None, for which `abs(r) > threshold` is
`False`, so the flag is empty. -/

def growthRate (vOld vNew : Option ℚ) (years : ℚ) : Option ℚ :=
  match vOld, vNew with
  | some a, some b => if years ≤ 0 then none else some ((b - a) / years)
  | _, _ => none

structure GrowthRow where
  base : MatchRow
  years : ℤ
  depth_rate : Option ℚ
  length_rate : Option ℚ
  width_rate : Option ℚ
  growth_flag : String
deriving Repr, DecidableEq, Inhabited

def augmentGrowth (years : ℤ) (maxDepthRate : ℚ) (r : MatchRow) : GrowthRow :=
  let dr := growthRate r.prev_depth_percent r.later_depth_percent (years : ℚ)
  { base := r, years := years,
    depth_rate := dr,
    length_rate := growthRate r.prev_length_mm r.later_length_mm (years : ℚ),
    width_rate := growthRate r.prev_width_mm r.later_width_mm (years : ℚ),
    growth_flag :=
      match dr with
      | some v => if qabs v > maxDepthRate then "outlier_rate" else ""
      | none => "" }

def computeGrowthForMatches (matchRows : List MatchRow) (prevYear laterYear : ℤ)
    (maxDepthRate : ℚ) : List MatchRow ⊕ List GrowthRow :=
  let years := laterYear - prevYear
  if years ≤ 0 then Sum.inl matchRows
  else Sum.inr (matchRows.map (augmentGrowth years maxDepthRate))

/- ### C7: growth rates and the outlier flag -/

/-- The conclusion of claim C7 for the `i`-th Match row: each of the three
rates is `(later − prev) / years` when both operands are present and the
undefined value otherwise, and the flag is `outlier_rate` exactly when the
depth rate is defined with absolute value above the threshold (5 %/yr). -/
def growthRowConcl (matchRows : List MatchRow) (prevYear laterYear : ℤ)
    (rows : List GrowthRow) (i : ℕ) : Prop :=
  let r := matchRows.getD i default
  let g := rows.getD i default
  let years : ℚ := ((laterYear - prevYear : ℤ) : ℚ)
  g.base = r ∧ g.years = laterYear - prevYear ∧
  g.depth_rate = (match r.prev_depth_percent, r.later_depth_percent with
    | some a, some b => some ((b - a) / years)
    | _, _ => none) ∧
  g.length_rate = (match r.prev_length_mm, r.later_length_mm with
    | some a, some b => some ((b - a) / years)
    | _, _ => none) ∧
  g.width_rate = (match r.prev_width_mm, r.later_width_mm with
    | some a, some b => some ((b - a) / years)
    | _, _ => none) ∧
  ((∃ v, g.depth_rate = some v ∧ MAX_DEPTH_RATE_OUTLIER < qabs v) →
    g.growth_flag = "outlier_rate") ∧
  ((∀ v, g.depth_rate = some v → qabs v ≤ MAX_DEPTH_RATE_OUTLIER) →
    g.growth_flag = "")

/-- C7: with a positive year span, `computeGrowthForMatches` augments every
Match row with the three `(later − prev) / years` rates (undefined, not
zero, whenever an operand is missing) and flags `outlier_rate` exactly
when the defined depth rate exceeds 5 %/yr in absolute value. -/
theorem computeGrowth_spec (matchRows : List MatchRow) (prevYear laterYear : ℤ)
    (hpos : 0 < laterYear - prevYear) :
    ∃ rows, computeGrowthForMatches matchRows prevYear laterYear MAX_DEPTH_RATE_OUTLIER
        = Sum.inr rows ∧
      rows.length = matchRows.length ∧
      ∀ i, i < matchRows.length → growthRowConcl matchRows prevYear laterYear rows i := by
  refine ⟨matchRows.map (augmentGrowth (laterYear - prevYear) MAX_DEPTH_RATE_OUTLIER), ?_, ?_, ?_⟩
  · unfold computeGrowthForMatches
    rw [if_neg (not_le.mpr hpos)]
  · exact List.length_map _ _
  · intro i hi
    unfold growthRowConcl
    have hg : (matchRows.map (augmentGrowth (laterYear - prevYear)
        MAX_DEPTH_RATE_OUTLIER)).getD i default
        = augmentGrowth (laterYear - prevYear) MAX_DEPTH_RATE_OUTLIER
            (matchRows.getD i default) := by
      rw [List.getD_eq_getElem?_getD, List.getElem?_map, List.getD_eq_getElem?_getD]
      cases hx : matchRows[i]? with
      | none =>
        exfalso
        rw [List.getElem?_eq_none_iff] at hx
        omega
      | some x => rfl
    rw [hg]
    have hyq : ¬ ((laterYear - prevYear : ℤ) : ℚ) ≤ 0 := by
      rw [not_le]
      exact_mod_cast hpos
    simp only [augmentGrowth]
    refine ⟨trivial, trivial, ?_, ?_, ?_, ?_, ?_⟩
    · unfold growthRate
      cases (matchRows.getD i default).prev_depth_percent <;>
        cases (matchRows.getD i default).later_depth_percent <;>
        simp [hyq] <;> omega
    · unfold growthRate
      cases (matchRows.getD i default).prev_length_mm <;>
        cases (matchRows.getD i default).later_length_mm <;>
        simp [hyq] <;> omega
    · unfold growthRate
      cases (matchRows.getD i default).prev_width_mm <;>
        cases (matchRows.getD i default).later_width_mm <;>
        simp [hyq] <;> omega
    · rintro ⟨v, hv, hout⟩
      rw [hv]
      simp [hout]
    · intro hall
      cases hd : growthRate (matchRows.getD i default).prev_depth_percent
          (matchRows.getD i default).later_depth_percent
          ((laterYear - prevYear : ℤ) : ℚ) with
      | none => rfl
      | some v =>
        have hle := hall v hd
        simp [not_lt.mpr hle]

def wGrowthIn : MatchRow :=
  { prev_idx := 0, later_idx := 0, prev_year := 2015, later_year := 2022,
    prev_distance_raw := none, later_distance_raw := none,
    prev_distance_corrected := some 10, later_distance_corrected := some 10,
    delta_distance := some 0,
    prev_depth_percent := some 20, later_depth_percent := some 35,
    prev_length_mm := none, later_length_mm := none,
    prev_width_mm := none, later_width_mm := none,
    score := 0, reason_flags := "" }

theorem computeGrowth_spec_witness :
    (0 : ℤ) < 2022 - 2015 ∧
    (∃ rows, computeGrowthForMatches [wGrowthIn] 2015 2022 MAX_DEPTH_RATE_OUTLIER
        = Sum.inr rows ∧
      rows.length = ([wGrowthIn] : List MatchRow).length ∧
      ∀ i, i < ([wGrowthIn] : List MatchRow).length →
        growthRowConcl [wGrowthIn] 2015 2022 rows i) :=
  ⟨by norm_num, computeGrowth_spec [wGrowthIn] 2015 2022 (by norm_num)⟩

/- ### Future projections (project.py)

The two transcendental functions of the source, `math.exp` inside
`_project_depth_realistic` and `math.log` inside `_logistic_k_from_row`,
are abstracted as function parameters `expF`/`logF`: the claims proved
here hold for every instantiation, and `ℚ`-valued definitions stay
executable.  Row years come from the Matches CSV and are converted with
`int(...)` in the source; the model carries them as `Option ℤ` directly.
`pyRound2` models Python's `round(x, 2)` (round half to even). -/

def roundHalfEven (x : ℚ) : ℤ :=
  let f := ⌊x⌋
  let r := x - (f : ℚ)
  if r < 1/2 then f
  else if r > 1/2 then f + 1
  else if Even f then f else f + 1

def pyRound2 (x : ℚ) : ℚ := ((roundHalfEven (x * 100) : ℤ) : ℚ) / 100

structure ProjInRow where
  prev_idx : Option ℚ
  later_idx : Option ℚ
  prev_year : Option ℤ
  later_year : Option ℤ
  prev_depth : Option ℚ
  later_depth : Option ℚ
  depth_rate : Option ℚ
  later_distance : Option ℚ
deriving Repr, DecidableEq, Inhabited

/-- project.py `_growth_rate_per_year`: prefer a present `depth_rate`
column, else recompute from the two observations. -/
def growthRatePerYear (r : ProjInRow) : Option ℚ :=
  match r.depth_rate with
  | some v => some v
  | none =>
    match r.prev_year, r.later_year, r.prev_depth, r.later_depth with
    | some py, some ly, some pd0, some ld0 =>
      if ly - py ≤ 0 then none
      else some ((ld0 - pd0) / ((ly - py : ℤ) : ℚ))
    | _, _, _, _ => none

/-- project.py `_logistic_k_from_row` with `math.log` abstracted as
`logF`. -/
def logisticKFromRow (logF : ℚ → ℚ) (r : ProjInRow) : Option ℚ :=
  match r.prev_year, r.later_year, r.prev_depth, r.later_depth with
  | some py, some ly, some pd0, some ld0 =>
    let dt := ly - py
    if dt ≤ 0 then none
    else
      let d0 := max 0 (min (99999/1000) pd0)
      let d1 := max 0 (min (99999/1000) ld0)
      if d1 ≤ d0 then some 0
      else
        let rem0 := 100 - d0
        let rem1 := 100 - d1
        if rem0 ≤ 0 ∨ rem1 ≤ 0 then none
        else
          let rr := rem1 / rem0
          if rr ≤ 0 then none
          else some (-(logF rr) / ((dt : ℤ) : ℚ))
  | _, _, _, _ => none

/-- pandas `Series.quantile` with linear interpolation on the sorted
values (callers only use it on non-empty series). -/
def pdQuantile (xs : List ℚ) (q : ℚ) : ℚ :=
  let s := xs.mergeSort (fun a b => decide (a ≤ b))
  let h := q * ((s.length : ℚ) - 1)
  let i := (⌊h⌋).toNat
  let lo := s.getD i 0
  let hi := s.getD (i + 1) lo
  lo + (h - (⌊h⌋ : ℚ)) * (hi - lo)

/-- project.py `_bounded_logistic_k`: clip to the 5th–95th percentile band
of the valid fitted values, then floor at zero; report whether the value
was altered. -/
def boundedLogisticK (k : Option ℚ) (kValid : List ℚ) : Option ℚ × Bool :=
  match k with
  | none => (none, false)
  | some kv =>
    if kValid.length = 0 then
      let bounded := max 0 kv
      (some bounded, decide (bounded ≠ kv))
    else
      let lo := pdQuantile kValid (1/20)
      let hi := pdQuantile kValid (19/20)
      let b1 := max lo (min hi kv)
      let b2 := max 0 b1
      (some b2, decide (b2 ≠ kv))

/-- project.py `_project_depth_realistic` with `math.exp` abstracted as
`expF` (the source computes `exp(-k * years_ahead)`). -/
def projectDepthRealistic (expF : ℚ → ℚ) (depthCurrent : ℚ) (boundedK : Option ℚ)
    (yearsAhead : ℤ) : ℚ :=
  match boundedK with
  | none => depthCurrent
  | some k =>
    if yearsAhead ≤ 0 then depthCurrent
    else
      let rem := max (1/1000) (100 - depthCurrent)
      let projected := 100 - rem * expF (-(k * (yearsAhead : ℚ)))
      max 0 (min 100 projected)

def joinSemi (flags : List String) : String :=
  match flags with
  | [] => ""
  | fs => String.intercalate (";") fs

structure ProjOutRow where
  anomaly_id_prev : Option ℚ
  anomaly_id_curr : Option ℚ
  aligned_distance : Option ℚ
  depth_prev : Option ℚ
  depth_curr : ℚ
  growth_rate_per_year : Option ℚ
  projected_depth : ℚ
  confidence_flag : String
  notes : String
deriving Repr, DecidableEq, Inhabited

/-- The body of the per-row loop of project.py `compute_projections` for
one target year (rows with a missing current depth or later year are
skipped). -/
def projRow (expF logF : ℚ → ℚ) (kValid ratesValid : List ℚ) (p90 : ℚ)
    (highGrowthP90 : Bool) (targetYear : ℤ) (r : ProjInRow) : Option ProjOutRow :=
  match r.later_depth, r.later_year with
  | some depthCurr, some laterY =>
    let gr := growthRatePerYear r
    let k := logisticKFromRow logF r
    let yearsAhead := targetYear - laterY
    let bk := boundedLogisticK k kValid
    let projected := projectDepthRealistic expF depthCurr bk.1 yearsAhead
    let modeledRate : Option ℚ := bk.1.map (fun b => b * max 0 (100 - depthCurr))
    let flags : List String :=
      match modeledRate with
      | none => []
      | some mr =>
        (if mr < 0 then ["negative_growth"] else []) ++
        (if highGrowthP90 ∧ ratesValid.length > 0 ∧ mr > p90 then ["high_growth"] else []) ++
        (if bk.2 then ["model_capped"] else [])
    some {
      anomaly_id_prev := r.prev_idx, anomaly_id_curr := r.later_idx,
      aligned_distance := r.later_distance,
      depth_prev := r.prev_depth, depth_curr := depthCurr,
      growth_rate_per_year := modeledRate,
      projected_depth := pyRound2 projected,
      confidence_flag := joinSemi flags,
      notes := if gr = none then "missing_growth_rate" else "" }
  | _, _ => none

/-- project.py `compute_projections`, one target year of the result dict
(the source loops the same row construction over `target_years`). -/
def computeProjections (expF logF : ℚ → ℚ) (matchRows : List ProjInRow)
    (targetYear : ℤ) (highGrowthP90 : Bool) : List ProjOutRow :=
  let ratesValid := matchRows.filterMap growthRatePerYear
  let kValid := matchRows.filterMap (logisticKFromRow logF)
  let p90 := if ratesValid.length > 0 then pdQuantile ratesValid (9/10) else 0
  matchRows.filterMap (projRow expF logF kValid ratesValid p90 highGrowthP90 targetYear)

/- ### C8: projection is a passthrough at non-positive horizon -/

/-- C8: `_project_depth_realistic` returns the current depth unchanged for
any non-positive horizon, so a projections-table row built for a target
year at or before the row's later observation year carries
`projected_depth = round₂(depth_curr)` — in particular the projection at
the later observation year itself is the current depth up to the 2-decimal
rounding. -/
theorem projection_passthrough (expF logF : ℚ → ℚ) :
    (∀ (d : ℚ) (bk : Option ℚ) (n : ℤ), n ≤ 0 →
      projectDepthRealistic expF d bk n = d) ∧
    (∀ (kValid ratesValid : List ℚ) (p90 : ℚ) (hg : Bool) (ty : ℤ) (r : ProjInRow)
        (ly : ℤ) (out : ProjOutRow),
      r.later_year = some ly → ty - ly ≤ 0 →
      projRow expF logF kValid ratesValid p90 hg ty r = some out →
      out.projected_depth = pyRound2 out.depth_curr) ∧
    (∀ (matchRows : List ProjInRow) (ty : ℤ) (hg : Bool),
      (∀ r ∈ matchRows, ∀ ly, r.later_year = some ly → ty ≤ ly) →
      ∀ out ∈ computeProjections expF logF matchRows ty hg,
        out.projected_depth = pyRound2 out.depth_curr) := by
  have h1 : ∀ (d : ℚ) (bk : Option ℚ) (n : ℤ), n ≤ 0 →
      projectDepthRealistic expF d bk n = d := by
    intro d bk n hn
    cases bk with
    | none => rfl
    | some k =>
      simp only [projectDepthRealistic]
      rw [if_pos hn]
  have h2 : ∀ (kValid ratesValid : List ℚ) (p90 : ℚ) (hg : Bool) (ty : ℤ)
      (r : ProjInRow) (ly : ℤ) (out : ProjOutRow),
      r.later_year = some ly → ty - ly ≤ 0 →
      projRow expF logF kValid ratesValid p90 hg ty r = some out →
      out.projected_depth = pyRound2 out.depth_curr := by
    intro kValid ratesValid p90 hg ty r ly out hly hhor heq
    cases hd : r.later_depth with
    | none =>
      simp only [projRow, hd] at heq
      exact Option.noConfusion heq
    | some d =>
      simp only [projRow, hd, hly] at heq
      obtain rfl := Option.some.inj heq
      simp only
      rw [h1 d _ (ty - ly) hhor]
  refine ⟨h1, h2, ?_⟩
  intro matchRows ty hg hbound out hout
  simp only [computeProjections, List.mem_filterMap] at hout
  obtain ⟨r, hr, heq⟩ := hout
  cases hy : r.later_year with
  | none =>
    cases hd : r.later_depth <;> simp only [projRow, hd, hy] at heq <;>
      exact Option.noConfusion heq
  | some ly =>
    have : ty - ly ≤ 0 := by
      have := hbound r hr ly hy
      omega
    exact h2 _ _ _ _ _ r ly out hy this heq

theorem projection_passthrough_witness :
    (((0 : ℤ) ≤ 0) ∧ projectDepthRealistic (fun _ => 0) 42 (some 1) 0 = 42) ∧
    ((⟨none, none, some 2015, some 2022, some 20, some 35, none, none⟩ :
        ProjInRow).later_year = some 2022 ∧ (2022 : ℤ) - 2022 ≤ 0 ∧
      ∀ out, projRow (fun _ => 0) (fun _ => 0) [] [] 0 true 2022
          ⟨none, none, some 2015, some 2022, some 20, some 35, none, none⟩ = some out →
        out.projected_depth = pyRound2 out.depth_curr) :=
  ⟨⟨le_refl 0, (projection_passthrough (fun _ => 0) (fun _ => 0)).1 42 (some 1) 0
      (le_refl 0)⟩,
   rfl, by norm_num,
   fun out heq => (projection_passthrough (fun _ => 0) (fun _ => 0)).2.1 [] [] 0 true 2022
     ⟨none, none, some 2015, some 2022, some 20, some 35, none, none⟩ 2022 out rfl
     (by norm_num) heq⟩

/- ### C9: the bounded saturation rate is never negative -/

theorem joinSemi_no_neg (l2 l3 : List String)
    (h2 : l2 = ["high_growth"] ∨ l2 = []) (h3 : l3 = ["model_capped"] ∨ l3 = []) :
    containsSub (joinSemi ([] ++ l2 ++ l3)) ("negative_growth") = false := by
  rcases h2 with rfl | rfl <;> rcases h3 with rfl | rfl <;> decide

/-- C9: `_bounded_logistic_k` never returns a negative rate (it is floored
at zero after the percentile clip), hence every projection row's modeled
rate `bounded_k · max(0, 100 − depth_curr)` is non-negative and the
confidence flag string never contains `negative_growth`. -/
theorem projections_never_negative_growth :
    (∀ (k : Option ℚ) (kValid : List ℚ) (b : ℚ),
      (boundedLogisticK k kValid).1 = some b → 0 ≤ b) ∧
    (∀ (expF logF : ℚ → ℚ) (matchRows : List ProjInRow) (ty : ℤ) (hg : Bool),
      ∀ out ∈ computeProjections expF logF matchRows ty hg,
        (∀ mr, out.growth_rate_per_year = some mr → 0 ≤ mr) ∧
        containsSub out.confidence_flag ("negative_growth") = false) := by
  have h1 : ∀ (k : Option ℚ) (kValid : List ℚ) (b : ℚ),
      (boundedLogisticK k kValid).1 = some b → 0 ≤ b := by
    intro k kValid b hb
    cases k with
    | none => exact Option.noConfusion hb
    | some kv =>
      simp only [boundedLogisticK] at hb
      by_cases hkv : kValid.length = 0
      · rw [if_pos hkv] at hb
        rw [← Option.some.inj hb]
        exact le_max_left 0 kv
      · rw [if_neg hkv] at hb
        rw [← Option.some.inj hb]
        exact le_max_left 0 _
  refine ⟨h1, ?_⟩
  intro expF logF matchRows ty hg out hout
  simp only [computeProjections, List.mem_filterMap] at hout
  obtain ⟨r, -, heq⟩ := hout
  cases hd : r.later_depth with
  | none =>
    simp only [projRow, hd] at heq
    exact Option.noConfusion heq
  | some d =>
    cases hy : r.later_year with
    | none =>
      simp only [projRow, hd, hy] at heq
      exact Option.noConfusion heq
    | some ly =>
      simp only [projRow, hd, hy] at heq
      obtain rfl := Option.some.inj heq
      constructor
      · intro mr hmr
        simp only at hmr
        rw [Option.map_eq_some'] at hmr
        obtain ⟨b, hb, hbm⟩ := hmr
        have hb0 := h1 _ _ _ hb
        rw [← hbm]
        exact mul_nonneg hb0 (le_max_left 0 _)
      · simp only
        cases hbk : (boundedLogisticK (logisticKFromRow logF r)
            (matchRows.filterMap (logisticKFromRow logF))).1 with
        | none =>
          show containsSub (joinSemi []) ("negative_growth") = false
          decide
        | some b =>
          have hb0 := h1 _ _ _ hbk
          have hmr0 : ¬ (b * max 0 (100 - d) < 0) :=
            not_lt.mpr (mul_nonneg hb0 (le_max_left 0 _))
          simp only [Option.map_some']
          rw [if_neg hmr0]
          exact joinSemi_no_neg _ _ (ite_eq_or_eq _ _ _) (ite_eq_or_eq _ _ _)

theorem projections_never_negative_growth_witness :
    (boundedLogisticK (some (-5)) []).1 = some 0 ∧ (0 : ℚ) ≤ 0 :=
  ⟨by rw [show (boundedLogisticK (some (-5)) []).1 = some (max 0 (-5)) from rfl,
      max_eq_left (by norm_num : (-5 : ℚ) ≤ 0)],
   projections_never_negative_growth.1 (some (-5)) [] 0
     (by rw [show (boundedLogisticK (some (-5)) []).1 = some (max 0 (-5)) from rfl,
       max_eq_left (by norm_num : (-5 : ℚ) ≤ 0)])⟩

example : qmod 370 360 = 10 := by norm_num [qmod]
example : circularClockDiff (some 350) (some 10) = 20 := by norm_num [circularClockDiff, qmod, qabs]
example : toFeatureFamily (some (" Metal Loss ")) = Family.metalLoss := by decide
example : toFeatureFamily (some ("Girth Weld")) = Family.weld := by decide
example : isAnomaly (some ("corrosion")) = true := by decide
example : isAnomaly (some ("gw")) = false := by decide
